import Mathlib

/-!
Verification of the H173K wallet client engines against their design
specification.

This file shallowly embeds the relevant JavaScript source:

* the constant-product swap quote `calculateOutput` and the reverse quote
  core of `calculateSwapForSOL` (src/hooks/useSwap.js).  JavaScript `BigInt`
  arithmetic is exact integer arithmetic with truncating division; it is
  modelled on `ℤ` with `Int.tdiv`, and the `RangeError` thrown by a zero
  divisor is modelled as `Option.none`.
* the auto-replenish retry wrapper `withAutoSOL` (src/hooks/useSwap.js).
* the status decoder `parseOfferStatus` (utils).  JavaScript dynamic values
  are modelled by the inductive `JSVal`; note that `typeof null === 'object'`
  in JavaScript, so a `null` status reaches the `in`-operator checks, which
  throw a `TypeError` on `null`; the throw is modelled as `Except.error`.
* the local replica cache and the `ListMine` reconciliation algorithm
  `fetchAllUserOffers`, plus `markOfferTerminal` and `createOffer`
  (the escrow hook).  The per-owner cache (a JavaScript object keyed by the
  offer address) is modelled as an insertion-ordered association list with
  distinct keys; the ledger RPC is modelled as an oracle `LedgerView`
  (a fetch that throws or finds no account is `none`).  Every fallible call
  inside `fetchAllUserOffers` is wrapped in its own `try/catch` in the
  source (index fetches are swallowed by `getOrCreateBuyerIndex` /
  `getSellerIndex`, per-offer fetches by the loop-local handlers, and
  `saveCachedOffers` catches internally), so the embedding of the function
  is total: it cannot throw.
-/

namespace H173K

/-! ## Swap / AMM arithmetic (src/hooks/useSwap.js) -/

/-- Shallow embedding of `calculateOutput(amountIn, reserveIn, reserveOut,
feeBps)` (useSwap.js lines 111-121).  All operations are JS `BigInt`
operations: exact integers, division truncating toward zero; a zero
denominator throws in JS and is `none` here. -/
def calculateOutput (amountIn reserveIn reserveOut feeBps : ℤ) : Option ℤ :=
  let feeAmount := (amountIn * feeBps).tdiv 10000
  let amountInAfterFee := amountIn - feeAmount
  let numerator := reserveOut * amountInAfterFee
  let denominator := reserveIn + amountInAfterFee
  if denominator = 0 then none else some (numerator.tdiv denominator)

/-- The exact-integer core of `calculateSwapForSOL(targetSOL)` (useSwap.js
lines 421-441): `h173kNeededRaw = (reserveH173K * targetLamports /
(reserveSOL - targetLamports)) * 10025n / 10000n`, i.e. the inverted
constant-product formula with a +0.25% margin.  All operations are JS
`BigInt` operations; a zero denominator throws in JS and is `none` here. -/
def calculateSwapForSOLRaw (reserveH173K reserveSOL targetLamports : ℤ) : Option ℤ :=
  let numerator := reserveH173K * targetLamports
  let denominator := reserveSOL - targetLamports
  if denominator = 0 then none
  else some ((numerator.tdiv denominator * 10025).tdiv 10000)

/-- The fee deducted from the input, `floor(amountIn * feeBps / 10000)`, on
ℕ (the values flowing through `calculateOutput` are non-negative). -/
def feeAmountN (amountIn feeBps : ℕ) : ℕ :=
  amountIn * feeBps / 10000

/-- The input remaining after the fee, on ℕ. -/
def amountInAfterFeeN (amountIn feeBps : ℕ) : ℕ :=
  amountIn - feeAmountN amountIn feeBps

/-- `calculateOutput` restricted to ℕ inputs (on which it agrees with the
`BigInt` computation, see `calculateOutput_eq_natCast`). -/
def calculateOutputN (amountIn reserveIn reserveOut feeBps : ℕ) : ℕ :=
  reserveOut * amountInAfterFeeN amountIn feeBps /
    (reserveIn + amountInAfterFeeN amountIn feeBps)

/-- The reverse-quote core restricted to ℕ inputs with
`targetLamports < reserveSOL`. -/
def calculateSwapForSOLRawN (reserveH173K reserveSOL targetLamports : ℕ) : ℕ :=
  reserveH173K * targetLamports / (reserveSOL - targetLamports) * 10025 / 10000

/-! ## Auto-replenish wrapper (src/hooks/useSwap.js lines 713-779)

`withAutoSOL(operation, onSwap)` runs `operation()`; on failure it classifies
the error with `parseInsufficientLamportsError`; if that returns `null` the
original error is rethrown; otherwise it runs `replenishSOL(need - have)`
once and retries `operation()` exactly once, rethrowing whatever the
replenish or the retry throws.  The embedding is parametric in the error
classifier and the replenisher (the wrapper only consumes their results),
and additionally returns how many times the operation was invoked and how
many times the replenishing swap was invoked. -/

/-- Result of `parseInsufficientLamportsError`: the extracted
`{ have, need }` pair, in lamports. -/
structure ParsedLamports where
  haveLamports : ℕ
  needLamports : ℕ
deriving DecidableEq

/-- Shallow embedding of `withAutoSOL`.  `op false` is the first attempt and
`op true` the retry (the two calls of `operation()` in the source).  Returns
(result, number of operation invocations, number of replenish invocations). -/
def withAutoSOL {α ε σ : Type} (op : Bool → Except ε α)
    (parseErr : ε → Option ParsedLamports)
    (replenish : ℕ → Except ε σ) : Except ε α × ℕ × ℕ :=
  match op false with
  | Except.ok a => (Except.ok a, 1, 0)
  | Except.error e =>
    match parseErr e with
    | none => (Except.error e, 1, 0)
    | some parsed =>
      match replenish (parsed.needLamports - parsed.haveLamports) with
      | Except.error swapError => (Except.error swapError, 1, 1)
      | Except.ok _ =>
        match op true with
        | Except.ok a => (Except.ok a, 2, 1)
        | Except.error e2 => (Except.error e2, 2, 1)

/-! ## Offer status decoding (utils, `parseOfferStatus`) -/

namespace OfferStatus

/-- `OfferStatus.PendingSeller` (constants). -/
def PendingSeller : ℤ := 0

/-- `OfferStatus.Locked` (constants). -/
def Locked : ℤ := 1

/-- `OfferStatus.BuyerConfirmed` (constants). -/
def BuyerConfirmed : ℤ := 2

/-- `OfferStatus.SellerConfirmed` (constants). -/
def SellerConfirmed : ℤ := 3

/-- `OfferStatus.Completed` (constants). -/
def Completed : ℤ := 4

/-- `OfferStatus.Burned` (constants). -/
def Burned : ℤ := 5

/-- `OfferStatus.Cancelled` (constants). -/
def Cancelled : ℤ := 6

end OfferStatus

/-- A JavaScript runtime value as far as `parseOfferStatus` can observe it:
a number, an object (observed through the keys the `in` operator reports),
`null`, `undefined`, a string, or a boolean. -/
inductive JSVal where
  | num : ℤ → JSVal
  | obj : List String → JSVal
  | jsNull : JSVal
  | undef : JSVal
  | str : String → JSVal
  | boolean : Bool → JSVal
deriving DecidableEq

/-- Shallow embedding of `parseOfferStatus(status)` (utils).  A number is
returned as-is; otherwise, if `typeof status === 'object'` the seven variant
keys are probed in order with the `in` operator and the first hit decides
the value.  In JavaScript `typeof null === 'object'`, so a `null` status
enters the object branch, where `'pendingSeller' in null` throws a
`TypeError` (modelled as `Except.error`).  Every other shape falls through
to the final `return OfferStatus.PendingSeller`. -/
def parseOfferStatus : JSVal → Except String ℤ
  | JSVal.num n => Except.ok n
  | JSVal.jsNull =>
      Except.error "TypeError: Cannot use in operator to search for pendingSeller in null"
  | JSVal.obj keys =>
      if keys.contains "pendingSeller" then Except.ok OfferStatus.PendingSeller
      else if keys.contains "locked" then Except.ok OfferStatus.Locked
      else if keys.contains "buyerConfirmed" then Except.ok OfferStatus.BuyerConfirmed
      else if keys.contains "sellerConfirmed" then Except.ok OfferStatus.SellerConfirmed
      else if keys.contains "completed" then Except.ok OfferStatus.Completed
      else if keys.contains "burned" then Except.ok OfferStatus.Burned
      else if keys.contains "cancelled" then Except.ok OfferStatus.Cancelled
      else Except.ok OfferStatus.PendingSeller
  | _ => Except.ok OfferStatus.PendingSeller

/-- The seven variant keys `parseOfferStatus` recognizes, in probe order. -/
def recognizedStatusKeys : List String :=
  ["pendingSeller", "locked", "buyerConfirmed", "sellerConfirmed",
   "completed", "burned", "cancelled"]

/-- `isTerminalStatus` on an already-decoded numeric status (the escrow
hook's local helper: `Completed`, `Burned` or `Cancelled`). -/
def isTerminalStatus (status : ℤ) : Bool :=
  status == OfferStatus.Completed || status == OfferStatus.Burned ||
    status == OfferStatus.Cancelled

/-! ## Local replica cache and reconciliation (escrow hook) -/

/-- A ledger address, identified by its base58 string (the cache key
`offerPubkey.toString()`). -/
abbrev Addr := String

/-- A cached offer snapshot, as written by `serializeOffer` /
`updateCachedOffer` (the JSON object stored per address in the per-wallet
localStorage cache).  `seller` is `none` when the wire value was the unset
sentinel / `null`.  Amounts are JS numbers, modelled exactly on ℚ.  The
`lastUpdated` / `terminalAt` wall-clock timestamps carry no decision logic
and are omitted. -/
structure CachedOffer where
  buyer : Addr
  seller : Option Addr
  amount : ℚ
  buyerDeposit : ℚ
  sellerDeposit : ℚ
  status : ℤ
  nonce : ℕ
  buyerConfirmed : Bool
  sellerConfirmed : Bool
  isClosed : Bool
  codeHash : List ℕ
  isTerminal : Bool
deriving DecidableEq

/-- An offer account as fetched from the ledger
(`program.account.offer.fetch`).  The status is the raw wire value, decoded
only by `parseOfferStatus`. -/
structure LedgerOffer where
  buyer : Addr
  seller : Option Addr
  amount : ℚ
  buyerDeposit : ℚ
  sellerDeposit : ℚ
  status : JSVal
  nonce : ℕ
  buyerConfirmed : Bool
  sellerConfirmed : Bool
  isClosed : Bool
  codeHash : List ℕ
deriving DecidableEq

/-- One element of the array returned by `fetchAllUserOffers`: either a
freshly fetched account (`{publicKey, ...offer, _fromBlockchain: true}`) or
a cache entry passed through `deserializeOffer`. -/
inductive ReturnedOffer where
  | fromChain : Addr → LedgerOffer → ReturnedOffer
  | fromCache : Addr → CachedOffer → ReturnedOffer
deriving DecidableEq

/-- The buyer index account: the active offer addresses plus the next
creation nonce. -/
structure BuyerIndex where
  activeOffers : List Addr
  nextNonce : ℕ
deriving DecidableEq

/-- The seller index account: the active offer addresses. -/
structure SellerIndex where
  activeOffers : List Addr
deriving DecidableEq

/-- The ledger as observed by one `fetchAllUserOffers` call: the result of
the two index fetches (`none` when the account does not exist or the fetch
threw, both swallowed by `getOrCreateBuyerIndex` / `getSellerIndex`), and
the result of fetching each offer account (`none` when the account is
closed/absent or the RPC call threw). -/
structure LedgerView where
  buyerIndex : Option BuyerIndex
  sellerIndex : Option SellerIndex
  offers : Addr → Option LedgerOffer

/-- A totally unavailable ledger: every fetch fails. -/
def unavailableLedger : LedgerView :=
  { buyerIndex := none, sellerIndex := none, offers := fun _ => none }

/-- Lookup in the per-wallet cache object (property access
`cached[offerPubkey]`). -/
def lookupOffer : List (Addr × CachedOffer) → Addr → Option CachedOffer
  | [], _ => none
  | (k, v) :: rest, pk => if k = pk then some v else lookupOffer rest pk

/-- Property assignment `cache[pk] = v` on a JavaScript object: an existing
key is updated in place, a new key is appended in insertion order. -/
def setEntry : List (Addr × CachedOffer) → Addr → CachedOffer → List (Addr × CachedOffer)
  | [], pk, v => [(pk, v)]
  | (k, w) :: rest, pk, v =>
      if k = pk then (k, v) :: rest else (k, w) :: setEntry rest pk v

/-- The `activeOfferKeys` set of `fetchAllUserOffers`: the buyer-index
addresses followed by the seller-index addresses, first occurrence kept
(JavaScript `Set` insertion semantics). -/
def activeOfferKeys (L : LedgerView) : List Addr :=
  let add := fun (acc : List Addr) (k : Addr) => if k ∈ acc then acc else acc ++ [k]
  let withBuyer :=
    match L.buyerIndex with
    | some bi => bi.activeOffers.foldl add []
    | none => []
  match L.sellerIndex with
  | some si => si.activeOffers.foldl add withBuyer
  | none => withBuyer

/-- `serializeOffer` with the status already decoded: the cache snapshot of
a fetched account (no `isTerminal` property yet, i.e. `false`). -/
def serializeOfferWith (offer : LedgerOffer) (status : ℤ) : CachedOffer :=
  { buyer := offer.buyer
    seller := offer.seller
    amount := offer.amount
    buyerDeposit := offer.buyerDeposit
    sellerDeposit := offer.sellerDeposit
    status := status
    nonce := offer.nonce
    buyerConfirmed := offer.buyerConfirmed
    sellerConfirmed := offer.sellerConfirmed
    isClosed := offer.isClosed
    codeHash := offer.codeHash
    isTerminal := false }

/-- Shallow embedding of `serializeOffer(offer, pubkey)`: decodes the status
with `parseOfferStatus` (which can throw) and builds the cache snapshot. -/
def serializeOffer (offer : LedgerOffer) : Except String CachedOffer :=
  (parseOfferStatus offer.status).map (serializeOfferWith offer)

/-- The locally inferred terminal entry used when a cached non-terminal
offer disappeared from the indexes and its verification fetch failed: both
confirmation flags set infers `Completed`, otherwise the last known cached
status is retained; the entry is marked terminal. -/
def inferTerminal (cached : CachedOffer) : CachedOffer :=
  { cached with
    isTerminal := true
    status :=
      if cached.buyerConfirmed && cached.sellerConfirmed then OfferStatus.Completed
      else cached.status }

/-- The snapshot cached for a freshly verified offer in step 3: the
serialized account, marked terminal when its decoded status is terminal
(`serialized.isTerminal = true` under `isTerminalStatus(status)`). -/
def freshSnapshot (offer : LedgerOffer) (st : ℤ) : CachedOffer :=
  if isTerminalStatus st then { serializeOfferWith offer st with isTerminal := true }
  else serializeOfferWith offer st

/-- Step 2 of `fetchAllUserOffers`: fetch every address in the active union,
overwrite its cache entry with the serialized snapshot and return it fresh;
a failed fetch (or a throwing `serializeOffer`) is caught, logged and
skipped.  Returns (offers pushed, updated cache, addresses fetched). -/
def fetchActiveOffers (L : LedgerView) :
    List Addr → List (Addr × CachedOffer) →
    List ReturnedOffer × List (Addr × CachedOffer) × List Addr
  | [], cache => ([], cache, [])
  | pk :: rest, cache =>
    match L.offers pk with
    | some offer =>
      match serializeOffer offer with
      | Except.ok s =>
        let r := fetchActiveOffers L rest (setEntry cache pk s)
        (ReturnedOffer.fromChain pk offer :: r.1, r.2.1, pk :: r.2.2)
      | Except.error _ =>
        let r := fetchActiveOffers L rest cache
        (r.1, r.2.1, pk :: r.2.2)
    | none =>
      let r := fetchActiveOffers L rest cache
      (r.1, r.2.1, pk :: r.2.2)

/-- Step 3 of `fetchAllUserOffers`: walk the originally loaded cache
entries; skip addresses in the active union and entries not owned by this
wallet; return terminal entries verbatim from cache with no fetch; fetch
each remaining entry once, caching the fresh snapshot (marked terminal when
its decoded status is terminal) on success, and falling back to the locally
inferred terminal entry when the fetch (or the status decode) throws.
Returns (offers pushed, updated cache, addresses fetched). -/
def reconcileCachedOffers (wallet : Addr) (keys : List Addr) (L : LedgerView) :
    List (Addr × CachedOffer) → List (Addr × CachedOffer) →
    List ReturnedOffer × List (Addr × CachedOffer) × List Addr
  | [], cache => ([], cache, [])
  | (pk, cached) :: rest, cache =>
    if pk ∈ keys then reconcileCachedOffers wallet keys L rest cache
    else if cached.buyer ≠ wallet ∧ cached.seller ≠ some wallet then
      reconcileCachedOffers wallet keys L rest cache
    else if cached.isTerminal then
      let r := reconcileCachedOffers wallet keys L rest cache
      (ReturnedOffer.fromCache pk cached :: r.1, r.2.1, r.2.2)
    else
      match L.offers pk with
      | some offer =>
        match parseOfferStatus offer.status with
        | Except.ok st =>
          let r := reconcileCachedOffers wallet keys L rest
            (setEntry cache pk (freshSnapshot offer st))
          (ReturnedOffer.fromChain pk offer :: r.1, r.2.1, pk :: r.2.2)
        | Except.error _ =>
          let c := inferTerminal cached
          let r := reconcileCachedOffers wallet keys L rest (setEntry cache pk c)
          (ReturnedOffer.fromCache pk c :: r.1, r.2.1, pk :: r.2.2)
      | none =>
        let c := inferTerminal cached
        let r := reconcileCachedOffers wallet keys L rest (setEntry cache pk c)
        (ReturnedOffer.fromCache pk c :: r.1, r.2.1, pk :: r.2.2)

/-- Shallow embedding of `fetchAllUserOffers` (the `ListMine`
reconciliation): load the cache, compute the active union from the two
index fetches, fetch the active offers, then reconcile the remaining cached
entries, and persist the updated cache.  Returns (offers returned, saved
cache, addresses for which an offer-account fetch was issued). -/
def fetchAllUserOffers (wallet : Addr) (cache0 : List (Addr × CachedOffer))
    (L : LedgerView) :
    List ReturnedOffer × List (Addr × CachedOffer) × List Addr :=
  let keys := activeOfferKeys L
  let r1 := fetchActiveOffers L keys cache0
  let r2 := reconcileCachedOffers wallet keys L cache0 r1.2.1
  (r1.1 ++ r2.1, r2.2.1, r1.2.2 ++ r2.2.2)

/-- A sequence of `fetchAllUserOffers` calls by the same wallet, each
observing its own ledger state, threading the persisted cache.  Returns the
(offers, fetched addresses) of every call and the final cache. -/
def iterateListMine (wallet : Addr) :
    List (Addr × CachedOffer) → List LedgerView →
    List (List ReturnedOffer × List Addr) × List (Addr × CachedOffer)
  | cache, [] => ([], cache)
  | cache, L :: views =>
    let r := fetchAllUserOffers wallet cache L
    let rest := iterateListMine wallet r.2.1 views
    ((r.1, r.2.2) :: rest.1, rest.2)

/-- The conclusion of the terminal-caching claim, over the outputs of a
sequence of `ListMine` calls: every call returns the entry verbatim from
cache and never fetches its address. -/
def terminalStable (pk : Addr) (c : CachedOffer)
    (results : List (List ReturnedOffer × List Addr)) : Prop :=
  ∀ r ∈ results, ReturnedOffer.fromCache pk c ∈ r.1 ∧ pk ∉ r.2

/-- Shallow embedding of `markOfferTerminal(walletPubkey, offerPubkey,
status)` on the per-wallet cache: if the address has an entry, overwrite its
status and set `isTerminal`; otherwise do nothing (the guard
`if (cached[offerPubkey])` fails and nothing is saved). -/
def markOfferTerminal (cache : List (Addr × CachedOffer)) (offerPubkey : Addr)
    (status : ℤ) : List (Addr × CachedOffer) :=
  match lookupOffer cache offerPubkey with
  | some c => setEntry cache offerPubkey { c with status := status, isTerminal := true }
  | none => cache

/-! ## Offer creation (escrow hook, `createOffer`) -/

/-- `TOKEN_DECIMALS` (constants). -/
def TOKEN_DECIMALS : ℕ := 9

/-- `toTokenAmount(amount)` (utils): human-readable amount to smallest
units, `Math.floor(amount * 10 ** TOKEN_DECIMALS)`.  JS numbers are
modelled exactly on ℚ. -/
def toTokenAmount (amount : ℚ) : ℤ :=
  ⌊amount * 10 ^ TOKEN_DECIMALS⌋

/-- Shallow embedding of the cache effect of `createOffer(amount, code,
name)`: derive the offer address from (wallet, next nonce), hash the code
against it, submit the creation transaction (`rpcOk` is its outcome), and on
success write the fully populated entry into the cache before returning.
The address derivation (`getOfferPDA`, a SHA-256 based PDA) and the
commitment hash (`hashCode`, SHA-256 of address bytes followed by the code
bytes) are injected as parameters `deriveOfferPDA` and `hashCode`: the
wrapped hash primitive is out of scope, and `createOffer` only pipes their
outputs through.  The cached entry stores `amount * 10 ** TOKEN_DECIMALS`
and `amount * 2 * 10 ** TOKEN_DECIMALS` as written in the source (without a
floor), while the on-chain deposit uses `toTokenAmount`. -/
def createOffer (deriveOfferPDA : Addr → ℕ → Addr)
    (hashCode : String → Addr → List ℕ) (wallet : Addr)
    (cache : List (Addr × CachedOffer)) (nextNonce : ℕ) (amount : ℚ)
    (code : String) (rpcOk : Bool) :
    Except String (Addr × List (Addr × CachedOffer)) :=
  let offerPDA := deriveOfferPDA wallet nextNonce
  let ch := hashCode code offerPDA
  if rpcOk then
    Except.ok (offerPDA, setEntry cache offerPDA
      { buyer := wallet
        seller := none
        amount := amount * 10 ^ TOKEN_DECIMALS
        buyerDeposit := amount * 2 * 10 ^ TOKEN_DECIMALS
        sellerDeposit := 0
        status := OfferStatus.PendingSeller
        nonce := nextNonce
        buyerConfirmed := false
        sellerConfirmed := false
        isClosed := false
        codeHash := ch
        isTerminal := false })
  else Except.error "create failed"

/-- The fully populated entry `createOffer` writes into the cache on
success, expressed in smallest units: principal `k`, buyer deposit `2 * k`,
seller deposit 0, status `PendingSeller`, both confirmation flags clear,
and the commitment digest of (secret code, derived address). -/
def createdEntry (wallet : Addr) (nonce : ℕ) (k : ℕ) (ch : List ℕ) : CachedOffer :=
  { buyer := wallet
    seller := none
    amount := (k : ℚ)
    buyerDeposit := 2 * (k : ℚ)
    sellerDeposit := 0
    status := OfferStatus.PendingSeller
    nonce := nonce
    buyerConfirmed := false
    sellerConfirmed := false
    isClosed := false
    codeHash := ch
    isTerminal := false }

/-- A sample cached offer used to instantiate witnesses. -/
def sampleCached : CachedOffer :=
  { buyer := "buyer1"
    seller := some "seller1"
    amount := 100
    buyerDeposit := 200
    sellerDeposit := 0
    status := OfferStatus.Locked
    nonce := 0
    buyerConfirmed := false
    sellerConfirmed := false
    isClosed := false
    codeHash := [7]
    isTerminal := false }

/-- A sample terminal cached offer used to instantiate witnesses. -/
def sampleTerminal : CachedOffer :=
  { sampleCached with status := OfferStatus.Cancelled, isTerminal := true }

/-! ## Helper lemmas: BigInt arithmetic on ℕ inputs -/

theorem tdiv_natCast (m n : ℕ) : ((m : ℤ)).tdiv (n : ℤ) = ((m / n : ℕ) : ℤ) := rfl

theorem feeAmountN_le {amountIn feeBps : ℕ} (h : feeBps ≤ 10000) :
    feeAmountN amountIn feeBps ≤ amountIn :=
  Nat.div_le_of_le_mul
    (by calc amountIn * feeBps ≤ amountIn * 10000 := Nat.mul_le_mul_left _ h
      _ = 10000 * amountIn := Nat.mul_comm _ _)

/-- On ℕ inputs with a sane fee and a positive input reserve, the `BigInt`
computation of `calculateOutput` agrees with the ℕ formula. -/
theorem calculateOutput_eq_natCast (a ri ro f : ℕ) (hf : f ≤ 10000) (hri : 0 < ri) :
    calculateOutput (a : ℤ) (ri : ℤ) (ro : ℤ) (f : ℤ) =
      some ((calculateOutputN a ri ro f : ℕ) : ℤ) := by
  have h1 : ((a : ℤ) * (f : ℤ)).tdiv 10000 = ((feeAmountN a f : ℕ) : ℤ) := by
    rw [show ((a : ℤ) * (f : ℤ)) = ((a * f : ℕ) : ℤ) by push_cast; ring,
      show (10000 : ℤ) = ((10000 : ℕ) : ℤ) by norm_num, tdiv_natCast]
    rfl
  have h2 : (a : ℤ) - ((feeAmountN a f : ℕ) : ℤ) = ((amountInAfterFeeN a f : ℕ) : ℤ) := by
    rw [amountInAfterFeeN, Nat.cast_sub (feeAmountN_le hf)]
  have hd0 : ri + amountInAfterFeeN a f ≠ 0 := by omega
  simp only [calculateOutput]
  rw [h1, h2,
    show ((ri : ℤ) + ((amountInAfterFeeN a f : ℕ) : ℤ)) =
      (((ri + amountInAfterFeeN a f : ℕ)) : ℤ) by push_cast; ring,
    show ((ro : ℤ) * ((amountInAfterFeeN a f : ℕ) : ℤ)) =
      (((ro * amountInAfterFeeN a f : ℕ)) : ℤ) by push_cast; ring,
    tdiv_natCast]
  rw [if_neg (by exact_mod_cast hd0)]
  rfl

/-- On ℕ inputs with `targetLamports < reserveSOL`, the `BigInt` computation
of the reverse-quote core agrees with the ℕ formula. -/
theorem calculateSwapForSOLRaw_eq_natCast (ri ro t : ℕ) (ht : t < ro) :
    calculateSwapForSOLRaw (ri : ℤ) (ro : ℤ) (t : ℤ) =
      some ((calculateSwapForSOLRawN ri ro t : ℕ) : ℤ) := by
  have hsub : (ro : ℤ) - (t : ℤ) = ((ro - t : ℕ) : ℤ) :=
    (Nat.cast_sub (Nat.le_of_lt ht)).symm
  have hd0 : ro - t ≠ 0 := by omega
  simp only [calculateSwapForSOLRaw]
  rw [hsub, show ((ri : ℤ) * (t : ℤ)) = ((ri * t : ℕ) : ℤ) by push_cast; ring,
    tdiv_natCast,
    show (((ri * t / (ro - t) : ℕ)) : ℤ) * 10025 =
      (((ri * t / (ro - t) * 10025 : ℕ)) : ℤ) by push_cast; ring,
    show (10000 : ℤ) = ((10000 : ℕ) : ℤ) by norm_num, tdiv_natCast]
  rw [if_neg (by exact_mod_cast hd0)]
  rfl

/-! ## Helper lemmas: monotonicity of the quote arithmetic -/

theorem amountInAfterFeeN_mono {a1 a2 f : ℕ} (hf : f ≤ 10000) (h : a1 ≤ a2) :
    amountInAfterFeeN a1 f ≤ amountInAfterFeeN a2 f := by
  have hd2 : a2 * f / 10000 ≤ a1 * f / 10000 + (a2 - a1) := by
    have hmul : a2 * f ≤ a1 * f + 10000 * (a2 - a1) := by
      have e : a2 * f = a1 * f + (a2 - a1) * f := by
        rw [← Nat.add_mul, Nat.add_sub_cancel' h]
      have hstep : (a2 - a1) * f ≤ 10000 * (a2 - a1) := by
        rw [Nat.mul_comm 10000 (a2 - a1)]
        exact Nat.mul_le_mul_left _ hf
      omega
    calc a2 * f / 10000 ≤ (a1 * f + 10000 * (a2 - a1)) / 10000 :=
          Nat.div_le_div_right hmul
      _ = a1 * f / 10000 + (a2 - a1) := Nat.add_mul_div_left _ _ (by norm_num)
  have h1 : a1 * f / 10000 ≤ a1 := feeAmountN_le hf
  have h2 : a2 * f / 10000 ≤ a2 := feeAmountN_le hf
  unfold amountInAfterFeeN feeAmountN
  omega

/-- The map `x ↦ ro * x / (ri + x)` is monotone on ℕ for `0 < ri`. -/
theorem outFracN_mono {ri ro x1 x2 : ℕ} (hri : 0 < ri) (h : x1 ≤ x2) :
    ro * x1 / (ri + x1) ≤ ro * x2 / (ri + x2) := by
  obtain ⟨d, rfl⟩ : ∃ d, x2 = x1 + d := ⟨x2 - x1, by omega⟩
  have hpos : 0 < ri + (x1 + d) := by omega
  rw [Nat.le_div_iff_mul_le hpos]
  have hk : ro * x1 / (ri + x1) * (ri + x1) ≤ ro * x1 := Nat.div_mul_le_self _ _
  have hkro : ro * x1 / (ri + x1) ≤ ro := by
    refine Nat.div_le_of_le_mul ?_
    calc ro * x1 ≤ ro * (ri + x1) := Nat.mul_le_mul_left _ (by omega)
      _ = (ri + x1) * ro := Nat.mul_comm _ _
  calc ro * x1 / (ri + x1) * (ri + (x1 + d))
      = ro * x1 / (ri + x1) * (ri + x1) + ro * x1 / (ri + x1) * d := by ring
    _ ≤ ro * x1 + ro * d := Nat.add_le_add hk (Nat.mul_le_mul_right _ hkro)
    _ = ro * (x1 + d) := by ring

theorem calculateOutputN_mono {a1 a2 ri ro f : ℕ} (hf : f ≤ 10000) (hri : 0 < ri)
    (h : a1 ≤ a2) :
    calculateOutputN a1 ri ro f ≤ calculateOutputN a2 ri ro f :=
  outFracN_mono hri (amountInAfterFeeN_mono hf h)

/-! ## Helper lemmas: the reverse quote composed with the forward quote -/

/-- After the 25 bps forward fee, the input produced by the reverse quote is
at most the floor of the exact no-fee inversion `ri * t / (ro - t)`: the
+0.25% margin is consumed entirely by the 0.25% fee. -/
theorem reverseQuoteN_afterFee_le (ri ro t : ℕ) :
    amountInAfterFeeN (calculateSwapForSOLRawN ri ro t) 25 ≤ ri * t / (ro - t) := by
  set x0 := ri * t / (ro - t) with hx0
  have hx : calculateSwapForSOLRawN ri ro t = x0 + x0 * 25 / 10000 := by
    rw [calculateSwapForSOLRawN, ← hx0]
    omega
  have hfee : x0 * 25 / 10000 ≤ (x0 + x0 * 25 / 10000) * 25 / 10000 := by
    refine Nat.div_le_div_right ?_
    exact Nat.mul_le_mul_right _ (by omega)
  unfold amountInAfterFeeN feeAmountN
  rw [hx]
  omega

/-- Feeding the reverse-quoted input back through the forward quote with the
25 bps fee never yields more than the target. -/
theorem reverseQuoteN_forward_le (ri ro t : ℕ) (hri : 0 < ri) (ht : t < ro) :
    calculateOutputN (calculateSwapForSOLRawN ri ro t) ri ro 25 ≤ t := by
  set x0 := ri * t / (ro - t) with hx0
  have h1 : amountInAfterFeeN (calculateSwapForSOLRawN ri ro t) 25 ≤ x0 :=
    reverseQuoteN_afterFee_le ri ro t
  have h2 : calculateOutputN (calculateSwapForSOLRawN ri ro t) ri ro 25 ≤
      ro * x0 / (ri + x0) := outFracN_mono hri h1
  have h3 : ro * x0 ≤ t * (ri + x0) := by
    have hdm : x0 * (ro - t) ≤ ri * t := by
      rw [hx0]
      exact Nat.div_mul_le_self _ _
    obtain ⟨d, hd⟩ : ∃ d, ro = t + d := ⟨ro - t, by omega⟩
    subst hd
    have hxd : x0 * d ≤ ri * t := by
      have e : t + d - t = d := by omega
      rwa [e] at hdm
    calc (t + d) * x0 = t * x0 + x0 * d := by ring
      _ ≤ t * x0 + ri * t := Nat.add_le_add_left hxd _
      _ = t * (ri + x0) := by ring
  have h4 : ro * x0 / (ri + x0) ≤ t := by
    have hpos : 0 < ri + x0 := by omega
    have h5 : ro * x0 / (ri + x0) ≤ t * (ri + x0) / (ri + x0) :=
      Nat.div_le_div_right h3
    rwa [Nat.mul_div_cancel _ hpos] at h5
  omega

/-! ## Claim theorems: swap arithmetic -/

/-- C3: for all amountIn, reserveIn, reserveOut and feeBps (with the fee at
most 100% and a nonempty input reserve, as in the deployed pool), the
forward quote `calculateOutput` returns exactly
`floor(reserveOut * amountInAfterFee / (reserveIn + amountInAfterFee))`
where `amountInAfterFee = amountIn - floor(amountIn * feeBps / 10000)`,
the floors being exact rational floors: the quote is computed in exact
wide-integer arithmetic with no rounding beyond the specified floors. -/
theorem calculateOutput_floor_formula (amountIn reserveIn reserveOut feeBps : ℕ)
    (hfee : feeBps ≤ 10000) (hres : 0 < reserveIn) :
    calculateOutput (amountIn : ℤ) (reserveIn : ℤ) (reserveOut : ℤ) (feeBps : ℤ) =
      some ((⌊(reserveOut : ℚ) *
          ((amountIn : ℚ) - (⌊(amountIn : ℚ) * (feeBps : ℚ) / 10000⌋₊ : ℕ)) /
        ((reserveIn : ℚ) +
          ((amountIn : ℚ) - (⌊(amountIn : ℚ) * (feeBps : ℚ) / 10000⌋₊ : ℕ)))⌋₊ : ℕ) : ℤ) := by
  have hfl : (⌊(amountIn : ℚ) * (feeBps : ℚ) / 10000⌋₊ : ℕ) = feeAmountN amountIn feeBps := by
    rw [feeAmountN,
      show (amountIn : ℚ) * (feeBps : ℚ) = ((amountIn * feeBps : ℕ) : ℚ) by push_cast; ring,
      show (10000 : ℚ) = ((10000 : ℕ) : ℚ) by norm_num]
    exact Nat.floor_div_eq_div _ _
  have hsub : (amountIn : ℚ) - ((feeAmountN amountIn feeBps : ℕ) : ℚ) =
      ((amountInAfterFeeN amountIn feeBps : ℕ) : ℚ) := by
    rw [amountInAfterFeeN, Nat.cast_sub (feeAmountN_le hfee)]
  rw [calculateOutput_eq_natCast _ _ _ _ hfee hres, hfl, hsub]
  congr 2
  rw [calculateOutputN,
    show (reserveOut : ℚ) * ((amountInAfterFeeN amountIn feeBps : ℕ) : ℚ) =
      ((reserveOut * amountInAfterFeeN amountIn feeBps : ℕ) : ℚ) by push_cast; ring,
    show (reserveIn : ℚ) + ((amountInAfterFeeN amountIn feeBps : ℕ) : ℚ) =
      ((reserveIn + amountInAfterFeeN amountIn feeBps : ℕ) : ℚ) by push_cast; ring,
    Nat.floor_div_eq_div]

/-- Witness for C3 at amountIn 1000, reserves 500/600, fee 25 bps. -/
theorem calculateOutput_floor_formula_witness :
    calculateOutput ((1000 : ℕ) : ℤ) ((500 : ℕ) : ℤ) ((600 : ℕ) : ℤ) ((25 : ℕ) : ℤ) =
      some ((⌊((600 : ℕ) : ℚ) *
          (((1000 : ℕ) : ℚ) - (⌊((1000 : ℕ) : ℚ) * ((25 : ℕ) : ℚ) / 10000⌋₊ : ℕ)) /
        (((500 : ℕ) : ℚ) +
          (((1000 : ℕ) : ℚ) - (⌊((1000 : ℕ) : ℚ) * ((25 : ℕ) : ℚ) / 10000⌋₊ : ℕ)))⌋₊ : ℕ) : ℤ) :=
  calculateOutput_floor_formula 1000 500 600 25 (by norm_num) (by norm_num)

/-- C7 counterexample: the forward quote is not strictly increasing in the
input: with reserves 100/100 and the 25 bps fee, inputs 100 and 101 both
quote an output of 50. -/
theorem calculateOutput_not_strictly_increasing :
    calculateOutput 100 100 100 25 = some 50 ∧
      calculateOutput 101 100 100 25 = some 50 := by
  constructor <;> decide

/-- C7 amended: for fixed reserves and fee (fee at most 100%, input reserve
nonempty), the forward quote output is monotone non-decreasing in the input
amount; strict increase fails because of floor division (see the
counterexample). -/
theorem calculateOutput_monotone (a1 a2 ri ro f : ℕ) (hf : f ≤ 10000) (hri : 0 < ri)
    (h : a1 ≤ a2) (o1 o2 : ℤ)
    (h1 : calculateOutput (a1 : ℤ) (ri : ℤ) (ro : ℤ) (f : ℤ) = some o1)
    (h2 : calculateOutput (a2 : ℤ) (ri : ℤ) (ro : ℤ) (f : ℤ) = some o2) :
    o1 ≤ o2 := by
  rw [calculateOutput_eq_natCast _ _ _ _ hf hri] at h1 h2
  have e1 := Option.some.inj h1
  have e2 := Option.some.inj h2
  rw [← e1, ← e2]
  exact_mod_cast calculateOutputN_mono hf hri h

/-- Witness for C7 amended, at inputs 100 and 400 on reserves 100/100. -/
theorem calculateOutput_monotone_witness :
    calculateOutput ((100 : ℕ) : ℤ) ((100 : ℕ) : ℤ) ((100 : ℕ) : ℤ) ((25 : ℕ) : ℤ) =
        some 50 ∧
      calculateOutput ((400 : ℕ) : ℤ) ((100 : ℕ) : ℤ) ((100 : ℕ) : ℤ) ((25 : ℕ) : ℤ) =
        some 79 ∧
      (50 : ℤ) ≤ 79 :=
  ⟨by decide, by decide,
    calculateOutput_monotone 100 400 100 100 25 (by norm_num) (by norm_num)
      (by norm_num) 50 79 (by decide) (by decide)⟩

/-- C4 counterexample: with reserves 10^12 / 10^12 and a target of 10^9
lamports, the reverse-quoted input (+0.25% margin), fed back through the
forward quote with the 25 bps fee, recovers strictly less than the target:
the margin does not cover the fee plus floor truncation. -/
theorem reverseQuote_forward_below_target :
    ((calculateSwapForSOLRaw 1000000000000 1000000000000 1000000000).bind
        (fun x => calculateOutput x 1000000000000 1000000000000 25)).getD 1000000000
      < 1000000000 := by decide

/-- C4 amended: for every target below the output reserve (with a nonempty
input reserve), the input computed by the reverse quote
(`calculateSwapForSOLRaw`, the exact-integer core of `calculateSwapForSOL`),
when fed back through the forward quote against the same reserves and the
25 bps fee, yields an output that never exceeds the original target; it can
fall strictly below it (see the counterexample), because the +0.25% margin
is consumed by the 0.25% input-side fee and floor truncation.  (The source
compensates outside this exact-integer path by quoting an additional 2%
in floating point before executing.) -/
theorem reverseQuote_forward_le_target (reserveH173K reserveSOL target : ℕ)
    (hri : 0 < reserveH173K) (ht : target < reserveSOL) (x out : ℤ)
    (hrev : calculateSwapForSOLRaw (reserveH173K : ℤ) (reserveSOL : ℤ) (target : ℤ) =
      some x)
    (hfwd : calculateOutput x (reserveH173K : ℤ) (reserveSOL : ℤ) ((25 : ℕ) : ℤ) =
      some out) :
    out ≤ (target : ℤ) := by
  rw [calculateSwapForSOLRaw_eq_natCast _ _ _ ht] at hrev
  have hx := Option.some.inj hrev
  rw [← hx] at hfwd
  rw [calculateOutput_eq_natCast _ _ _ _ (by norm_num) hri] at hfwd
  have hout := Option.some.inj hfwd
  rw [← hout]
  exact_mod_cast reverseQuoteN_forward_le _ _ _ hri ht

/-- Witness for C4 amended, at reserves 100/100 and target 50. -/
theorem reverseQuote_forward_le_target_witness :
    calculateSwapForSOLRaw ((100 : ℕ) : ℤ) ((100 : ℕ) : ℤ) ((50 : ℕ) : ℤ) = some 100 ∧
      calculateOutput 100 ((100 : ℕ) : ℤ) ((100 : ℕ) : ℤ) ((25 : ℕ) : ℤ) = some 50 ∧
      (50 : ℤ) ≤ ((50 : ℕ) : ℤ) :=
  ⟨by decide, by decide,
    reverseQuote_forward_le_target 100 100 50 (by norm_num) (by norm_num) 100 50
      (by decide) (by decide)⟩

/-! ## Claim theorem: auto-replenish wrapper -/

/-- C2: for every wrapped operation, `withAutoSOL` invokes the operation at
most twice and invokes the replenishing swap at most once; if the first
failure is not classified as an insufficient-lamports error, the original
error is rethrown unchanged with no swap and no retry; and a failure of the
retried operation is surfaced to the caller unmodified. -/
theorem withAutoSOL_bounded_retry {α ε σ : Type} (op : Bool → Except ε α)
    (parseErr : ε → Option ParsedLamports) (replenish : ℕ → Except ε σ) :
    ((withAutoSOL op parseErr replenish).2.1 ≤ 2 ∧
      (withAutoSOL op parseErr replenish).2.2 ≤ 1) ∧
    (∀ e, op false = Except.error e → parseErr e = none →
      withAutoSOL op parseErr replenish = (Except.error e, 1, 0)) ∧
    (∀ e parsed s e2, op false = Except.error e → parseErr e = some parsed →
      replenish (parsed.needLamports - parsed.haveLamports) = Except.ok s →
      op true = Except.error e2 →
      (withAutoSOL op parseErr replenish).1 = Except.error e2) := by
  refine ⟨?_, ?_, ?_⟩
  · cases h0 : op false with
    | ok a => simp [withAutoSOL, h0]
    | error e =>
      cases hp : parseErr e with
      | none => simp [withAutoSOL, h0, hp]
      | some parsed =>
        cases hr : replenish (parsed.needLamports - parsed.haveLamports) with
        | error se => simp [withAutoSOL, h0, hp, hr]
        | ok s => cases h1 : op true <;> simp [withAutoSOL, h0, hp, hr, h1]
  · intro e h0 hp
    simp [withAutoSOL, h0, hp]
  · intro e parsed s e2 h0 hp hr h1
    simp [withAutoSOL, h0, hp, hr, h1]

/-- Witness for C2: a first failure that the classifier does not recognize
is rethrown unchanged, with one operation call and no swap. -/
theorem withAutoSOL_bounded_retry_witness :
    withAutoSOL (fun _ => (Except.error 7 : Except ℕ ℕ)) (fun _ => none)
        (fun _ => (Except.ok () : Except ℕ Unit)) = (Except.error 7, 1, 0) :=
  (withAutoSOL_bounded_retry (fun _ => (Except.error 7 : Except ℕ ℕ)) (fun _ => none)
    (fun _ => (Except.ok () : Except ℕ Unit))).2.1 7 rfl rfl

/-! ## Claim theorems: status decoding -/

/-- C9 counterexample: a `null` status is an input the claim covers
("including null"), yet `parseOfferStatus` does not return `PendingSeller`
on it: `typeof null === 'object'` routes `null` into the object branch,
where the `in` operator throws a `TypeError`. -/
theorem parseOfferStatus_null_throws :
    parseOfferStatus JSVal.jsNull ≠ Except.ok OfferStatus.PendingSeller ∧
      parseOfferStatus JSVal.jsNull =
        Except.error
          "TypeError: Cannot use in operator to search for pendingSeller in null" := by
  constructor
  · simp [parseOfferStatus]
  · rfl

/-- C9 amended: for any input that is neither a number, nor `null`, nor an
object containing one of the seven recognized variant keys, the decoder
totalizes with the silent default `OfferStatus.PendingSeller` (0); `null`,
by contrast, throws a `TypeError` (see the counterexample). -/
theorem parseOfferStatus_default_pending (v : JSVal) (h0 : v ≠ JSVal.jsNull)
    (h1 : ∀ n, v ≠ JSVal.num n)
    (h2 : ∀ ks, v = JSVal.obj ks → ∀ k ∈ recognizedStatusKeys, k ∉ ks) :
    parseOfferStatus v = Except.ok OfferStatus.PendingSeller := by
  cases v with
  | num n => exact absurd rfl (h1 n)
  | jsNull => exact absurd rfl h0
  | obj ks =>
    have hk := h2 ks rfl
    simp [parseOfferStatus,
      hk "pendingSeller" (by decide), hk "locked" (by decide),
      hk "buyerConfirmed" (by decide), hk "sellerConfirmed" (by decide),
      hk "completed" (by decide), hk "burned" (by decide),
      hk "cancelled" (by decide)]
  | undef => rfl
  | str s => rfl
  | boolean b => rfl

/-- Witness for C9 amended: a plain string decodes to the default. -/
theorem parseOfferStatus_default_pending_witness :
    parseOfferStatus (JSVal.str "bogus") = Except.ok OfferStatus.PendingSeller :=
  parseOfferStatus_default_pending (JSVal.str "bogus") (by decide)
    (fun n h => JSVal.noConfusion h) (fun ks h => JSVal.noConfusion h)

/-! ## Helper lemmas: cache lookup and update -/

theorem lookupOffer_setEntry_self (m : List (Addr × CachedOffer)) (k : Addr)
    (v : CachedOffer) : lookupOffer (setEntry m k v) k = some v := by
  induction m with
  | nil => simp [setEntry, lookupOffer]
  | cons a rest ih =>
    obtain ⟨ka, va⟩ := a
    by_cases hk : ka = k
    · subst hk
      simp [setEntry, lookupOffer]
    · simp [setEntry, hk, lookupOffer, ih]

theorem lookupOffer_setEntry_ne (m : List (Addr × CachedOffer)) (k pk : Addr)
    (v : CachedOffer) (h : pk ≠ k) :
    lookupOffer (setEntry m k v) pk = lookupOffer m pk := by
  have h2 : k ≠ pk := Ne.symm h
  induction m with
  | nil => simp [setEntry, lookupOffer, h2]
  | cons a rest ih =>
    obtain ⟨ka, va⟩ := a
    by_cases hk : ka = k
    · subst hk
      simp [setEntry, lookupOffer, h2]
    · simp [setEntry, hk, lookupOffer, ih]

theorem lookupOffer_mem {m : List (Addr × CachedOffer)} {pk : Addr} {c : CachedOffer}
    (h : lookupOffer m pk = some c) : (pk, c) ∈ m := by
  induction m with
  | nil => cases h
  | cons a rest ih =>
    obtain ⟨ka, va⟩ := a
    by_cases hk : ka = pk
    · subst hk
      simp [lookupOffer] at h
      subst h
      exact List.mem_cons_self _ _
    · simp [lookupOffer, hk] at h
      exact List.mem_cons_of_mem _ (ih h)

theorem lookupOffer_eq_of_mem_nodup {m : List (Addr × CachedOffer)} {pk : Addr}
    {c : CachedOffer} (hmem : (pk, c) ∈ m) (hnodup : (m.map Prod.fst).Nodup) :
    lookupOffer m pk = some c := by
  induction m with
  | nil => cases hmem
  | cons a rest ih =>
    obtain ⟨ka, va⟩ := a
    have hnod := hnodup
    rw [List.map_cons, List.nodup_cons] at hnod
    rcases List.mem_cons.mp hmem with heq | hmemr
    · injection heq with hp1 hp2
      subst hp1
      subst hp2
      simp [lookupOffer]
    · have hk : ka ≠ pk := by
        intro e
        subst e
        exact hnod.1 (List.mem_map.mpr ⟨(ka, c), hmemr, rfl⟩)
      simp [lookupOffer, hk, ih hmemr hnod.2]

/-! ## Claim theorem: terminal marking frame property -/

/-- C10: `markOfferTerminal` mutates only an existing entry: if the address
has no entry in the per-owner cache, the cache is left completely unchanged
(the terminal flag and status are silently dropped), and entries at every
other address are unchanged in every case. -/
theorem markOfferTerminal_frame (cache : List (Addr × CachedOffer)) (pk : Addr)
    (st : ℤ) :
    (lookupOffer cache pk = none → markOfferTerminal cache pk st = cache) ∧
    (∀ pk2, pk2 ≠ pk →
      lookupOffer (markOfferTerminal cache pk st) pk2 = lookupOffer cache pk2) := by
  constructor
  · intro h
    simp [markOfferTerminal, h]
  · intro pk2 hne
    unfold markOfferTerminal
    cases h : lookupOffer cache pk with
    | none => rfl
    | some c => exact lookupOffer_setEntry_ne _ _ _ _ hne

/-- Witness for C10: marking an absent address is a no-op, and marking a
present address leaves other addresses unchanged. -/
theorem markOfferTerminal_frame_witness :
    markOfferTerminal [("a", sampleCached)] "b" 6 = [("a", sampleCached)] ∧
      lookupOffer (markOfferTerminal [("a", sampleCached)] "a" 6) "c" =
        lookupOffer [("a", sampleCached)] "c" :=
  ⟨(markOfferTerminal_frame [("a", sampleCached)] "b" 6).1 (by decide),
    (markOfferTerminal_frame [("a", sampleCached)] "a" 6).2 "c" (by decide)⟩

/-! ## Helper lemmas: the reconciliation loops -/

/-- Step 2 never touches the cache entry of, and never fetches, an address
outside the active union. -/
theorem fetchActiveOffers_frame (L : LedgerView) (pk : Addr) :
    ∀ keys cache, pk ∉ keys →
      lookupOffer (fetchActiveOffers L keys cache).2.1 pk = lookupOffer cache pk ∧
        pk ∉ (fetchActiveOffers L keys cache).2.2 := by
  intro keys
  induction keys with
  | nil =>
    intro cache _
    exact ⟨rfl, List.not_mem_nil pk⟩
  | cons k rest ih =>
    intro cache h
    have hk : pk ≠ k := fun e => h (e ▸ List.mem_cons_self k rest)
    have hrest : pk ∉ rest := fun m => h (List.mem_cons_of_mem _ m)
    simp only [fetchActiveOffers]
    cases hf : L.offers k with
    | none =>
      obtain ⟨h1, h2⟩ := ih cache hrest
      exact ⟨by simp [h1], by simp [h2, hk]⟩
    | some offer =>
      cases hs : serializeOffer offer with
      | ok s =>
        obtain ⟨h1, h2⟩ := ih (setEntry cache k s) hrest
        rw [lookupOffer_setEntry_ne _ _ _ _ hk] at h1
        exact ⟨by simp [hs, h1], by simp [hs, h2, hk]⟩
      | error msg =>
        obtain ⟨h1, h2⟩ := ih cache hrest
        exact ⟨by simp [hs, h1], by simp [hs, h2, hk]⟩

/-- Step 2 issues exactly the fetches of the active union, in order. -/
theorem fetchActiveOffers_fetched (L : LedgerView) :
    ∀ keys cache, (fetchActiveOffers L keys cache).2.2 = keys := by
  intro keys
  induction keys with
  | nil => intro cache; rfl
  | cons k rest ih =>
    intro cache
    simp only [fetchActiveOffers]
    cases hf : L.offers k with
    | none => simp [ih]
    | some offer =>
      cases hs : serializeOffer offer with
      | ok s => simp [hs, ih]
      | error msg => simp [hs, ih]

/-- Step 3 never touches the cache entry of, and never fetches, an address
that is not a key of the walked entry list. -/
theorem reconcileCachedOffers_frame (wallet : Addr) (keys : List Addr) (L : LedgerView)
    (pk : Addr) :
    ∀ es cache, pk ∉ es.map Prod.fst →
      lookupOffer (reconcileCachedOffers wallet keys L es cache).2.1 pk =
          lookupOffer cache pk ∧
        pk ∉ (reconcileCachedOffers wallet keys L es cache).2.2 := by
  intro es
  induction es with
  | nil =>
    intro cache _
    exact ⟨rfl, List.not_mem_nil pk⟩
  | cons e rest ih =>
    intro cache h
    obtain ⟨k, d⟩ := e
    rw [List.map_cons, List.mem_cons, not_or] at h
    have h1 : pk ≠ k := h.1
    have h2 : pk ∉ rest.map Prod.fst := h.2
    simp only [reconcileCachedOffers]
    by_cases hin : k ∈ keys
    · rw [if_pos hin]
      exact ih cache h2
    · rw [if_neg hin]
      by_cases hskip : d.buyer ≠ wallet ∧ d.seller ≠ some wallet
      · rw [if_pos hskip]
        exact ih cache h2
      · rw [if_neg hskip]
        by_cases hterm : d.isTerminal = true
        · rw [if_pos hterm]
          obtain ⟨hl, hf⟩ := ih cache h2
          exact ⟨hl, hf⟩
        · rw [if_neg hterm]
          cases hfo : L.offers k with
          | some offer =>
            cases hps : parseOfferStatus offer.status with
            | ok st =>
              obtain ⟨hl, hf⟩ := ih (setEntry cache k (freshSnapshot offer st)) h2
              rw [lookupOffer_setEntry_ne _ _ _ _ h1] at hl
              exact ⟨by simp [hps, hl], by simp [hps, hf, h1]⟩
            | error msg =>
              obtain ⟨hl, hf⟩ := ih (setEntry cache k (inferTerminal d)) h2
              rw [lookupOffer_setEntry_ne _ _ _ _ h1] at hl
              exact ⟨by simp [hps, hl], by simp [hps, hf, h1]⟩
          | none =>
            obtain ⟨hl, hf⟩ := ih (setEntry cache k (inferTerminal d)) h2
            rw [lookupOffer_setEntry_ne _ _ _ _ h1] at hl
            exact ⟨by simp [hl], by simp [hf, h1]⟩

/-- Step 3 on a cached terminal entry owned by this wallet and outside the
active union: the entry is returned verbatim from cache, its cache slot is
untouched, and its address is never fetched. -/
theorem reconcileCachedOffers_terminal (wallet : Addr) (keys : List Addr)
    (L : LedgerView) (pk : Addr) (c : CachedOffer) (hkeys : pk ∉ keys)
    (hown : c.buyer = wallet ∨ c.seller = some wallet) (hterm : c.isTerminal = true) :
    ∀ es cache, (pk, c) ∈ es → (es.map Prod.fst).Nodup →
      ReturnedOffer.fromCache pk c ∈ (reconcileCachedOffers wallet keys L es cache).1 ∧
      lookupOffer (reconcileCachedOffers wallet keys L es cache).2.1 pk =
        lookupOffer cache pk ∧
      pk ∉ (reconcileCachedOffers wallet keys L es cache).2.2 := by
  have hskip : ¬(c.buyer ≠ wallet ∧ c.seller ≠ some wallet) := by
    rcases hown with h | h
    · exact fun hc => hc.1 h
    · exact fun hc => hc.2 h
  intro es
  induction es with
  | nil =>
    intro cache hmem _
    cases hmem
  | cons e rest ih =>
    intro cache hmem hnodup
    obtain ⟨k, d⟩ := e
    rw [List.map_cons, List.nodup_cons] at hnodup
    rcases List.mem_cons.mp hmem with heq | hmemr
    · injection heq with hp1 hp2
      subst hp1
      subst hp2
      have hrest : pk ∉ rest.map Prod.fst := hnodup.1
      simp only [reconcileCachedOffers]
      rw [if_neg hkeys, if_neg hskip, if_pos hterm]
      obtain ⟨hl, hf⟩ := reconcileCachedOffers_frame wallet keys L pk rest cache hrest
      exact ⟨List.mem_cons_self _ _, hl, hf⟩
    · have hk : k ≠ pk := by
        intro e
        subst e
        exact hnodup.1 (List.mem_map.mpr ⟨(k, c), hmemr, rfl⟩)
      have ihr := fun cache2 => ih cache2 hmemr hnodup.2
      simp only [reconcileCachedOffers]
      by_cases hin : k ∈ keys
      · rw [if_pos hin]
        exact ihr cache
      · rw [if_neg hin]
        by_cases hskip2 : d.buyer ≠ wallet ∧ d.seller ≠ some wallet
        · rw [if_pos hskip2]
          exact ihr cache
        · rw [if_neg hskip2]
          by_cases hterm2 : d.isTerminal = true
          · rw [if_pos hterm2]
            obtain ⟨hm, hl, hf⟩ := ihr cache
            exact ⟨List.mem_cons_of_mem _ hm, hl, hf⟩
          · rw [if_neg hterm2]
            cases hfo : L.offers k with
            | some offer =>
              cases hps : parseOfferStatus offer.status with
              | ok st =>
                obtain ⟨hm, hl, hf⟩ := ihr (setEntry cache k (freshSnapshot offer st))
                rw [lookupOffer_setEntry_ne _ _ _ _ (Ne.symm hk)] at hl
                exact ⟨by simp [hps, hm], by simp [hps, hl],
                  by simp [hps, hf, Ne.symm hk]⟩
              | error msg =>
                obtain ⟨hm, hl, hf⟩ := ihr (setEntry cache k (inferTerminal d))
                rw [lookupOffer_setEntry_ne _ _ _ _ (Ne.symm hk)] at hl
                exact ⟨by simp [hps, hm], by simp [hps, hl],
                  by simp [hps, hf, Ne.symm hk]⟩
            | none =>
              obtain ⟨hm, hl, hf⟩ := ihr (setEntry cache k (inferTerminal d))
              rw [lookupOffer_setEntry_ne _ _ _ _ (Ne.symm hk)] at hl
              exact ⟨by simp [hm], by simp [hl],
                by simp [hf, Ne.symm hk]⟩

/-- Step 3 on a cached non-terminal entry owned by this wallet and outside
the active union: its address is fetched exactly once, and if the fetch
fails the locally inferred terminal entry is both returned and cached. -/
theorem reconcileCachedOffers_verify (wallet : Addr) (keys : List Addr)
    (L : LedgerView) (pk : Addr) (c : CachedOffer) (hkeys : pk ∉ keys)
    (hown : c.buyer = wallet ∨ c.seller = some wallet) (hterm : c.isTerminal = false) :
    ∀ es cache, (pk, c) ∈ es → (es.map Prod.fst).Nodup →
      (reconcileCachedOffers wallet keys L es cache).2.2.count pk = 1 ∧
      (L.offers pk = none →
        ReturnedOffer.fromCache pk (inferTerminal c) ∈
          (reconcileCachedOffers wallet keys L es cache).1 ∧
        lookupOffer (reconcileCachedOffers wallet keys L es cache).2.1 pk =
          some (inferTerminal c)) := by
  have hskip : ¬(c.buyer ≠ wallet ∧ c.seller ≠ some wallet) := by
    rcases hown with h | h
    · exact fun hc => hc.1 h
    · exact fun hc => hc.2 h
  intro es
  induction es with
  | nil =>
    intro cache hmem _
    cases hmem
  | cons e rest ih =>
    intro cache hmem hnodup
    obtain ⟨k, d⟩ := e
    rw [List.map_cons, List.nodup_cons] at hnodup
    rcases List.mem_cons.mp hmem with heq | hmemr
    · injection heq with hp1 hp2
      subst hp1
      subst hp2
      have hrest : pk ∉ rest.map Prod.fst := hnodup.1
      simp only [reconcileCachedOffers]
      rw [if_neg hkeys, if_neg hskip, if_neg (by simp [hterm])]
      cases hfo : L.offers pk with
      | some offer =>
        cases hps : parseOfferStatus offer.status with
        | ok st =>
          obtain ⟨hl, hf⟩ := reconcileCachedOffers_frame wallet keys L pk rest
            (setEntry cache pk (freshSnapshot offer st)) hrest
          refine ⟨?_, fun hno => ?_⟩
          · simp [hps, List.count_cons, List.count_eq_zero.mpr hf]
          · exact Option.noConfusion hno
        | error msg =>
          obtain ⟨hl, hf⟩ := reconcileCachedOffers_frame wallet keys L pk rest
            (setEntry cache pk (inferTerminal c)) hrest
          refine ⟨?_, fun hno => ?_⟩
          · simp [hps, List.count_cons, List.count_eq_zero.mpr hf]
          · exact Option.noConfusion hno
      | none =>
        obtain ⟨hl, hf⟩ := reconcileCachedOffers_frame wallet keys L pk rest
          (setEntry cache pk (inferTerminal c)) hrest
        refine ⟨?_, fun _ => ⟨List.mem_cons_self _ _, ?_⟩⟩
        · simp [List.count_cons, List.count_eq_zero.mpr hf]
        · rw [show (ReturnedOffer.fromCache pk (inferTerminal c) ::
              (reconcileCachedOffers wallet keys L rest
                (setEntry cache pk (inferTerminal c))).1,
              (reconcileCachedOffers wallet keys L rest
                (setEntry cache pk (inferTerminal c))).2.1,
              pk :: (reconcileCachedOffers wallet keys L rest
                (setEntry cache pk (inferTerminal c))).2.2).2.1 =
            (reconcileCachedOffers wallet keys L rest
              (setEntry cache pk (inferTerminal c))).2.1 from rfl]
          rw [hl, lookupOffer_setEntry_self]
    · have hk : k ≠ pk := by
        intro e
        subst e
        exact hnodup.1 (List.mem_map.mpr ⟨(k, c), hmemr, rfl⟩)
      have hkb : (pk == k) = false := beq_eq_false_iff_ne.mpr (Ne.symm hk)
      have ihr := fun cache2 => ih cache2 hmemr hnodup.2
      simp only [reconcileCachedOffers]
      by_cases hin : k ∈ keys
      · rw [if_pos hin]
        exact ihr cache
      · rw [if_neg hin]
        by_cases hskip2 : d.buyer ≠ wallet ∧ d.seller ≠ some wallet
        · rw [if_pos hskip2]
          exact ihr cache
        · rw [if_neg hskip2]
          by_cases hterm2 : d.isTerminal = true
          · rw [if_pos hterm2]
            obtain ⟨hc, himp⟩ := ihr cache
            refine ⟨hc, fun hno => ?_⟩
            obtain ⟨hm, hl⟩ := himp hno
            exact ⟨List.mem_cons_of_mem _ hm, hl⟩
          · rw [if_neg hterm2]
            cases hfo : L.offers k with
            | some offer =>
              cases hps : parseOfferStatus offer.status with
              | ok st =>
                obtain ⟨hc, himp⟩ := ihr (setEntry cache k (freshSnapshot offer st))
                refine ⟨by simp [hps, List.count_cons, hkb, hc, hk], fun hno => ?_⟩
                obtain ⟨hm, hl⟩ := himp hno
                exact ⟨by simp [hps, hm], by simp [hps, hl]⟩
              | error msg =>
                obtain ⟨hc, himp⟩ := ihr (setEntry cache k (inferTerminal d))
                refine ⟨by simp [hps, List.count_cons, hkb, hc, hk], fun hno => ?_⟩
                obtain ⟨hm, hl⟩ := himp hno
                exact ⟨by simp [hps, hm], by simp [hps, hl]⟩
            | none =>
              obtain ⟨hc, himp⟩ := ihr (setEntry cache k (inferTerminal d))
              refine ⟨by simp [List.count_cons, hkb, hc, hk], fun hno => ?_⟩
              obtain ⟨hm, hl⟩ := himp hno
              exact ⟨by simp [hm], by simp [hl]⟩

/-- Step 3 against a totally unavailable ledger returns exactly the owned
cache entries, terminal ones verbatim and non-terminal ones as their
locally inferred terminal versions. -/
theorem reconcileCachedOffers_unavailable (wallet : Addr) (keys : List Addr) :
    ∀ es cache, (reconcileCachedOffers wallet keys unavailableLedger es cache).1 =
      es.filterMap (fun e =>
        if e.1 ∈ keys then none
        else if e.2.buyer = wallet ∨ e.2.seller = some wallet then
          some (ReturnedOffer.fromCache e.1
            (if e.2.isTerminal then e.2 else inferTerminal e.2))
        else none) := by
  intro es
  induction es with
  | nil => intro cache; rfl
  | cons e rest ih =>
    intro cache
    obtain ⟨k, d⟩ := e
    simp only [reconcileCachedOffers, List.filterMap_cons]
    by_cases hin : k ∈ keys
    · rw [if_pos hin]
      simp [hin, ih]
    · rw [if_neg hin]
      by_cases hown : d.buyer = wallet ∨ d.seller = some wallet
      · have hskip : ¬(d.buyer ≠ wallet ∧ d.seller ≠ some wallet) := by
          rcases hown with h | h
          · exact fun hc => hc.1 h
          · exact fun hc => hc.2 h
        rw [if_neg hskip]
        by_cases hterm : d.isTerminal = true
        · rw [if_pos hterm]
          simp [hin, hown, hterm, ih]
        · rw [if_neg hterm]
          have hterm2 : d.isTerminal = false := by
            cases hd : d.isTerminal
            · rfl
            · exact absurd hd hterm
          simp [hin, hown, hterm2, ih, show unavailableLedger.offers k = none from rfl]
      · have hskip : d.buyer ≠ wallet ∧ d.seller ≠ some wallet := by
          rw [not_or] at hown
          exact ⟨hown.1, hown.2⟩
        rw [if_pos hskip]
        simp [hin, hown, ih]

/-! ## Helper lemmas: the saved cache keeps distinct keys -/

theorem setEntry_keys (m : List (Addr × CachedOffer)) (k : Addr) (v : CachedOffer) :
    (setEntry m k v).map Prod.fst = m.map Prod.fst ∨
    ((setEntry m k v).map Prod.fst = m.map Prod.fst ++ [k] ∧ k ∉ m.map Prod.fst) := by
  induction m with
  | nil => exact Or.inr ⟨rfl, List.not_mem_nil k⟩
  | cons a rest ih =>
    obtain ⟨ka, va⟩ := a
    by_cases hk : ka = k
    · exact Or.inl (by simp [setEntry, hk])
    · rcases ih with h | ⟨h, hnot⟩
      · exact Or.inl (by simp [setEntry, hk, h])
      · refine Or.inr ⟨by simp [setEntry, hk, h], ?_⟩
        simp only [List.map_cons, List.mem_cons, not_or]
        exact ⟨fun e => hk e.symm, hnot⟩

theorem setEntry_keys_nodup (m : List (Addr × CachedOffer)) (k : Addr)
    (v : CachedOffer) (h : (m.map Prod.fst).Nodup) :
    ((setEntry m k v).map Prod.fst).Nodup := by
  rcases setEntry_keys m k v with he | ⟨he, hnot⟩
  · rwa [he]
  · rw [he]
    simp [List.nodup_append, h, hnot]

theorem fetchActiveOffers_nodup (L : LedgerView) :
    ∀ keys cache, (cache.map Prod.fst).Nodup →
      (((fetchActiveOffers L keys cache).2.1).map Prod.fst).Nodup := by
  intro keys
  induction keys with
  | nil => intro cache h; exact h
  | cons k rest ih =>
    intro cache h
    simp only [fetchActiveOffers]
    cases hf : L.offers k with
    | none => exact ih cache h
    | some offer =>
      cases hs : serializeOffer offer with
      | ok s =>
        have := ih (setEntry cache k s) (setEntry_keys_nodup cache k s h)
        simpa [hs] using this
      | error msg =>
        have := ih cache h
        simpa [hs] using this

theorem reconcileCachedOffers_nodup (wallet : Addr) (keys : List Addr)
    (L : LedgerView) :
    ∀ es cache, (cache.map Prod.fst).Nodup →
      (((reconcileCachedOffers wallet keys L es cache).2.1).map Prod.fst).Nodup := by
  intro es
  induction es with
  | nil => intro cache h; exact h
  | cons e rest ih =>
    intro cache h
    obtain ⟨k, d⟩ := e
    simp only [reconcileCachedOffers]
    by_cases hin : k ∈ keys
    · rw [if_pos hin]
      exact ih cache h
    · rw [if_neg hin]
      by_cases hskip : d.buyer ≠ wallet ∧ d.seller ≠ some wallet
      · rw [if_pos hskip]
        exact ih cache h
      · rw [if_neg hskip]
        by_cases hterm : d.isTerminal = true
        · rw [if_pos hterm]
          exact ih cache h
        · rw [if_neg hterm]
          cases hfo : L.offers k with
          | some offer =>
            cases hps : parseOfferStatus offer.status with
            | ok st =>
              have := ih (setEntry cache k (freshSnapshot offer st))
                (setEntry_keys_nodup cache k _ h)
              simpa [hps] using this
            | error msg =>
              have := ih (setEntry cache k (inferTerminal d))
                (setEntry_keys_nodup cache k _ h)
              simpa [hps] using this
          | none =>
            have := ih (setEntry cache k (inferTerminal d))
              (setEntry_keys_nodup cache k _ h)
            simpa using this

theorem fetchAllUserOffers_nodup (wallet : Addr) (cache0 : List (Addr × CachedOffer))
    (L : LedgerView) (h : (cache0.map Prod.fst).Nodup) :
    (((fetchAllUserOffers wallet cache0 L).2.1).map Prod.fst).Nodup :=
  reconcileCachedOffers_nodup wallet (activeOfferKeys L) L cache0 _
    (fetchActiveOffers_nodup L (activeOfferKeys L) cache0 h)

/-! ## Claim theorems: reconciliation (`ListMine`) -/

/-- A single `fetchAllUserOffers` call on a cached terminal entry owned by
this wallet whose address is not in the active union: the entry is returned
verbatim from cache, survives unchanged in the saved cache, and its address
is never fetched. -/
theorem fetchAllUserOffers_terminal_single (wallet pk : Addr) (c : CachedOffer)
    (cache0 : List (Addr × CachedOffer)) (L : LedgerView)
    (hmem : (pk, c) ∈ cache0) (hnodup : (cache0.map Prod.fst).Nodup)
    (hkeys : pk ∉ activeOfferKeys L)
    (hown : c.buyer = wallet ∨ c.seller = some wallet) (hterm : c.isTerminal = true) :
    ReturnedOffer.fromCache pk c ∈ (fetchAllUserOffers wallet cache0 L).1 ∧
    lookupOffer (fetchAllUserOffers wallet cache0 L).2.1 pk = some c ∧
    pk ∉ (fetchAllUserOffers wallet cache0 L).2.2 := by
  obtain ⟨hl1, hf1⟩ := fetchActiveOffers_frame L pk (activeOfferKeys L) cache0 hkeys
  obtain ⟨hm, hl2, hf2⟩ := reconcileCachedOffers_terminal wallet (activeOfferKeys L) L
    pk c hkeys hown hterm cache0
    (fetchActiveOffers L (activeOfferKeys L) cache0).2.1 hmem hnodup
  refine ⟨List.mem_append_right _ hm, ?_, ?_⟩
  · show lookupOffer (reconcileCachedOffers wallet (activeOfferKeys L) L cache0
      (fetchActiveOffers L (activeOfferKeys L) cache0).2.1).2.1 pk = some c
    rw [hl2, hl1]
    exact lookupOffer_eq_of_mem_nodup hmem hnodup
  · intro hcontra
    rcases List.mem_append.mp hcontra with hmemf | hmemf
    · exact hf1 hmemf
    · exact hf2 hmemf

/-- C1: idempotence of terminal caching.  For every contract whose cache
entry has `isTerminal` set and which is owned by this wallet, and for every
sequence of subsequent `fetchAllUserOffers` calls in each of which the
address is absent from the fetched buyer/seller index union (the union is
the only path to a step-2 fetch; the spec's index invariant keeps terminal
contracts out of it), every call returns that contract verbatim from cache,
issues zero offer-account fetches for its address, and leaves its cache
entry unchanged, forever. -/
theorem fetchAllUserOffers_terminal_cache_stable (wallet pk : Addr) (c : CachedOffer) :
    ∀ views cache0, (pk, c) ∈ cache0 → (cache0.map Prod.fst).Nodup →
      (c.buyer = wallet ∨ c.seller = some wallet) → c.isTerminal = true →
      (∀ L ∈ views, pk ∉ activeOfferKeys L) →
      terminalStable pk c (iterateListMine wallet cache0 views).1 ∧
      lookupOffer (iterateListMine wallet cache0 views).2 pk = some c := by
  intro views
  induction views with
  | nil =>
    intro cache0 hmem hnodup hown hterm _
    exact ⟨fun r hr => absurd hr (List.not_mem_nil r),
      lookupOffer_eq_of_mem_nodup hmem hnodup⟩
  | cons L views ih =>
    intro cache0 hmem hnodup hown hterm hkeys
    have hkL : pk ∉ activeOfferKeys L := hkeys L (List.mem_cons_self _ _)
    obtain ⟨hm, hl, hf⟩ :=
      fetchAllUserOffers_terminal_single wallet pk c cache0 L hmem hnodup hkL hown hterm
    have hnd1 := fetchAllUserOffers_nodup wallet cache0 L hnodup
    have hmem1 : (pk, c) ∈ (fetchAllUserOffers wallet cache0 L).2.1 := lookupOffer_mem hl
    obtain ⟨hstab, hfinal⟩ := ih (fetchAllUserOffers wallet cache0 L).2.1 hmem1 hnd1
      hown hterm (fun L2 h2 => hkeys L2 (List.mem_cons_of_mem _ h2))
    refine ⟨?_, hfinal⟩
    intro r hr
    rcases List.mem_cons.mp hr with he | hr2
    · rw [he]
      exact ⟨hm, hf⟩
    · exact hstab r hr2

/-- Witness for C1: a terminal cancelled entry across one reconciliation
pass against a fully unavailable ledger. -/
theorem fetchAllUserOffers_terminal_cache_stable_witness :
    terminalStable "o1" sampleTerminal
        (iterateListMine "buyer1" [("o1", sampleTerminal)] [unavailableLedger]).1 ∧
      lookupOffer (iterateListMine "buyer1" [("o1", sampleTerminal)]
        [unavailableLedger]).2 "o1" = some sampleTerminal :=
  fetchAllUserOffers_terminal_cache_stable "buyer1" "o1" sampleTerminal
    [unavailableLedger] [("o1", sampleTerminal)] (by decide) (by decide)
    (Or.inl rfl) rfl
    (fun L hL => by
      rw [List.mem_singleton] at hL
      rw [hL]
      decide)

/-- C5 counterexample: on the very first load of a cold (empty) cache with
the ledger totally unavailable, `fetchAllUserOffers` does not surface any
failure: it returns normally with an empty offer list (no "cannot load
contracts" error exists in this path; every fallible callee is caught). -/
theorem fetchAllUserOffers_cold_cache_no_error :
    fetchAllUserOffers "w" [] unavailableLedger = ([], [], []) := rfl

/-- C5 amended: on total ledger unavailability, `fetchAllUserOffers` never
throws (the embedding is total because every fallible callee is caught in
the source) and returns exactly the full local replica filtered to the
calling owner — entries where the owner is buyer or seller — terminal
entries verbatim and previously non-terminal entries marked terminal with
the locally inferred status; on the very first load of a cold cache this
list is empty and no failure is surfaced (see the counterexample). -/
theorem fetchAllUserOffers_ledger_unavailable (wallet : Addr)
    (cache : List (Addr × CachedOffer)) :
    (fetchAllUserOffers wallet cache unavailableLedger).1 =
      cache.filterMap (fun e =>
        if e.2.buyer = wallet ∨ e.2.seller = some wallet then
          some (ReturnedOffer.fromCache e.1
            (if e.2.isTerminal then e.2 else inferTerminal e.2))
        else none) := by
  have hkeys : activeOfferKeys unavailableLedger = [] := rfl
  show ((fetchActiveOffers unavailableLedger (activeOfferKeys unavailableLedger)
      cache).1 ++
    (reconcileCachedOffers wallet (activeOfferKeys unavailableLedger)
      unavailableLedger cache
      (fetchActiveOffers unavailableLedger (activeOfferKeys unavailableLedger)
        cache).2.1).1) = _
  rw [hkeys]
  rw [show fetchActiveOffers unavailableLedger [] cache = ([], cache, []) from rfl]
  rw [reconcileCachedOffers_unavailable wallet [] cache cache]
  simp

/-- C6: for a cached non-terminal contract of this owner absent from the
active index union, `fetchAllUserOffers` issues exactly one verification
fetch for its address; if that fetch fails, the entry is marked terminal
with the locally inferred status — `Completed` when both cached
confirmation flags are set, otherwise the last known cached status — and
the call still returns that contract (from the mutated cache entry) instead
of failing. -/
theorem fetchAllUserOffers_verify_once (wallet pk : Addr) (c : CachedOffer)
    (cache0 : List (Addr × CachedOffer)) (L : LedgerView)
    (hmem : (pk, c) ∈ cache0) (hnodup : (cache0.map Prod.fst).Nodup)
    (hkeys : pk ∉ activeOfferKeys L)
    (hown : c.buyer = wallet ∨ c.seller = some wallet)
    (hterm : c.isTerminal = false) :
    (fetchAllUserOffers wallet cache0 L).2.2.count pk = 1 ∧
    (inferTerminal c).isTerminal = true ∧
    (inferTerminal c).status =
      (if c.buyerConfirmed && c.sellerConfirmed then OfferStatus.Completed
        else c.status) ∧
    (L.offers pk = none →
      ReturnedOffer.fromCache pk (inferTerminal c) ∈
        (fetchAllUserOffers wallet cache0 L).1 ∧
      lookupOffer (fetchAllUserOffers wallet cache0 L).2.1 pk =
        some (inferTerminal c)) := by
  obtain ⟨hcount, himp⟩ := reconcileCachedOffers_verify wallet (activeOfferKeys L) L
    pk c hkeys hown hterm cache0
    (fetchActiveOffers L (activeOfferKeys L) cache0).2.1 hmem hnodup
  refine ⟨?_, rfl, rfl, fun hno => ?_⟩
  · show ((fetchActiveOffers L (activeOfferKeys L) cache0).2.2 ++
      (reconcileCachedOffers wallet (activeOfferKeys L) L cache0
        (fetchActiveOffers L (activeOfferKeys L) cache0).2.1).2.2).count pk = 1
    rw [List.count_append, fetchActiveOffers_fetched L (activeOfferKeys L) cache0,
      List.count_eq_zero.mpr hkeys, hcount]
  · obtain ⟨hm, hl⟩ := himp hno
    exact ⟨List.mem_append_right _ hm, hl⟩

/-- Witness for C6: a non-terminal cached entry whose account disappeared
(unavailable ledger), reconciled by a single owner call. -/
theorem fetchAllUserOffers_verify_once_witness :
    (fetchAllUserOffers "buyer1" [("o1", sampleCached)]
        unavailableLedger).2.2.count "o1" = 1 ∧
      ReturnedOffer.fromCache "o1" (inferTerminal sampleCached) ∈
        (fetchAllUserOffers "buyer1" [("o1", sampleCached)] unavailableLedger).1 ∧
      lookupOffer (fetchAllUserOffers "buyer1" [("o1", sampleCached)]
        unavailableLedger).2.1 "o1" = some (inferTerminal sampleCached) := by
  have h := fetchAllUserOffers_verify_once "buyer1" "o1" sampleCached
    [("o1", sampleCached)] unavailableLedger (by decide) (by decide) (by decide)
    (Or.inl rfl) rfl
  exact ⟨h.1, (h.2.2.2 rfl).1, (h.2.2.2 rfl).2⟩

/-! ## Claim theorem: offer creation -/

/-- C8: after every successful `createOffer(principal, secretCode)`, before
the operation returns, the cache contains a fully populated entry at the
derived contract address with buyer deposit exactly `2 * principal` in
smallest units (`principal = toTokenAmount amount = k`), seller deposit 0,
status `PendingSeller`, both confirmation flags false, and the commitment
digest derived from the secret code and the contract address.  The
hypothesis states that the human-readable `amount` is an exact multiple of
the smallest unit, under which "2 x principal in smallest units" is
well-defined. -/
theorem createOffer_caches_entry (D : Addr → ℕ → Addr) (H : String → Addr → List ℕ)
    (wallet : Addr) (cache : List (Addr × CachedOffer)) (nonce : ℕ) (amount : ℚ)
    (code : String) (k : ℕ) (hk : amount * 10 ^ TOKEN_DECIMALS = (k : ℚ)) :
    toTokenAmount amount = (k : ℤ) ∧
    createOffer D H wallet cache nonce amount code true =
      Except.ok (D wallet nonce,
        setEntry cache (D wallet nonce)
          (createdEntry wallet nonce k (H code (D wallet nonce)))) ∧
    lookupOffer (setEntry cache (D wallet nonce)
        (createdEntry wallet nonce k (H code (D wallet nonce)))) (D wallet nonce) =
      some (createdEntry wallet nonce k (H code (D wallet nonce))) := by
  have h2 : amount * 2 * 10 ^ TOKEN_DECIMALS = 2 * (k : ℚ) := by
    rw [show amount * 2 * 10 ^ TOKEN_DECIMALS =
      2 * (amount * 10 ^ TOKEN_DECIMALS) by ring, hk]
  refine ⟨?_, ?_, lookupOffer_setEntry_self _ _ _⟩
  · rw [toTokenAmount, hk, Int.floor_natCast]
  · simp [createOffer, createdEntry, hk, h2]

/-- Witness for C8 at a principal of 100 whole tokens (10^11 smallest
units), recovering the end-to-end scenario deposit of 2 x principal. -/
theorem createOffer_caches_entry_witness :
    toTokenAmount 100 = ((100000000000 : ℕ) : ℤ) ∧
    createOffer (fun _ _ => "offerA") (fun _ _ => [3, 5]) "buyer1" [] 0 100
        "code" true =
      Except.ok ("offerA", setEntry [] "offerA"
        (createdEntry "buyer1" 0 100000000000 [3, 5])) ∧
    lookupOffer (setEntry [] "offerA" (createdEntry "buyer1" 0 100000000000 [3, 5]))
      "offerA" = some (createdEntry "buyer1" 0 100000000000 [3, 5]) :=
  createOffer_caches_entry (fun _ _ => "offerA") (fun _ _ => [3, 5]) "buyer1" [] 0
    100 "code" 100000000000 (by norm_num [TOKEN_DECIMALS])

end H173K
